import Mathlib

/-!
Verification development for `src/generate-extra-json.mjs`, the registry
merge / synchronization script of this repository.

The script maintains four JSON registries (last-known-good per channel, a
flat deduplicated catalog, latest version per milestone, latest patch per
build track) and expands records into download manifests.  JSON objects are
embedded as association lists over `String` keys (JavaScript objects keep
insertion order, and the script only reads, overwrites and appends
properties, which the association-list operations below mirror).  The
external `createTimestamp` collaborator (`new Date().toISOString()`) is
embedded as a generator `tsGen : Nat → String` together with a call counter
(the "tick") threaded through each function: every call of
`createTimestamp` in the source consumes one tick, so the final counter
records how many timestamps a run generated and which generated value ended
up stored.
-/

/-- Splits a character list at the dots, mirroring `String.prototype.split('.')`:
`"a.b"` becomes `[a, b]`, the empty string becomes `[""]`, a trailing dot
produces a trailing empty component. -/
def splitDots : List Char → List (List Char)
  | [] => [[]]
  | c :: cs =>
    let r := splitDots cs
    if c = '.' then [] :: r
    else
      match r with
      | [] => [[c]]
      | h :: t => (c :: h) :: t

/-- Numeric value of one dotted component, as JavaScript's `Number` reads a
string of decimal digits.  Valid input (per the spec's data model) has
all-digit components; this embedding presumes that shape. -/
def compToNat (cs : List Char) : Nat :=
  cs.foldl (fun n c => n * 10 + (c.toNat - 48)) 0

/-- Parses a dotted version string into its list of numeric components. -/
def parseVersion (s : String) : List Nat :=
  (splitDots s.toList).map compToNat

/-- Modelled from the spec (§4.1): the Version Comparator of the missing
`is-older-version.mjs` module.  Components are compared left to right; the
first differing pair decides; if all compared components agree (including
when one sequence ends first) neither version counts as older. -/
def isOlderL : List Nat → List Nat → Bool
  | a :: as, b :: bs =>
    if a < b then true
    else if b < a then false
    else isOlderL as bs
  | _, _ => false

/-- Modelled from the spec (§4.1): `isOlderVersion(a, b)` is true iff `a`
denotes a strictly earlier release than `b`. -/
def isOlderVersion (a b : String) : Bool :=
  isOlderL (parseVersion a) (parseVersion b)

/-- Modelled from the spec (§4.2): `predatesAvailability(kind, version)` is
true iff `version` is strictly older than the first release that shipped
`kind`.  The hardcoded first-shipping version of the missing
`is-older-version.mjs` module is abstracted as the `cutoff` argument. -/
def predatesAvailability (cutoff version : String) : Bool :=
  isOlderVersion version cutoff

/-- Property read `obj[k]` on a JSON object embedded as an association
list: the value at the first matching key, if any. -/
def lookupA {β : Type} : List (String × β) → String → Option β
  | [], _ => none
  | p :: l, k => if p.1 == k then some p.2 else lookupA l k

/-- Property write `obj[k] = v` for a key already present: overwrites the
value in place, keeping the object's property order. -/
def updateA {β : Type} : List (String × β) → String → β → List (String × β)
  | [], _, _ => []
  | p :: l, k, v => if p.1 == k then (p.1, v) :: updateA l k v else p :: updateA l k v

/-- Property write `obj[k] = v` for a possibly absent key: overwrite in
place when present, append at the end otherwise (JavaScript property
insertion order). -/
def setA {β : Type} (l : List (String × β)) (k : String) (v : β) : List (String × β) :=
  if (lookupA l k).isSome then updateA l k v else l ++ [(k, v)]

/-- One entry of the incoming dashboard snapshot: a channel's currently
observed version. -/
structure ChannelRecord where
  channel : String
  version : String
  revision : String
  ok : Bool
deriving DecidableEq

/-- The incoming snapshot (`data.channels`): the script only iterates
`Object.values(data.channels)`, so the snapshot is embedded as the list of
channel records in property order. -/
structure Snapshot where
  channels : List ChannelRecord
deriving DecidableEq

/-- A `{version, revision}` pair as stored in the registries. -/
structure VerRev where
  version : String
  revision : String
deriving DecidableEq

/-- The persisted `last-known-good-versions.json` document. -/
structure KnownGoodRegistry where
  timestamp : String
  channels : List (String × VerRev)
deriving DecidableEq

/-- One iteration of the loop of `prepareLastKnownGoodVersionsData`: skip
`ok=false` channels; otherwise read the persisted entry for the record's
channel name (a missing entry makes the script dereference `undefined`,
embedded as `none`); skip when both fields match; otherwise assign a fresh
timestamp and overwrite the entry's `version` and `revision`. -/
def reconcileChannel (tsGen : Nat → String) (st : KnownGoodRegistry × Nat)
    (cd : ChannelRecord) : Option (KnownGoodRegistry × Nat) :=
  if !cd.ok then some st
  else
    match lookupA st.1.channels cd.channel with
    | none => none
    | some knownData =>
      if knownData.version == cd.version && knownData.revision == cd.revision then some st
      else
        some ({ timestamp := tsGen st.2,
                channels := updateA st.1.channels cd.channel ⟨cd.version, cd.revision⟩ },
              st.2 + 1)

/-- The loop of `prepareLastKnownGoodVersionsData` over the snapshot's
channel records. -/
def reconcileChannels (tsGen : Nat → String) :
    KnownGoodRegistry × Nat → List ChannelRecord → Option (KnownGoodRegistry × Nat)
  | st, [] => some st
  | st, cd :: rest =>
    match reconcileChannel tsGen st cd with
    | none => none
    | some st' => reconcileChannels tsGen st' rest

/-- `prepareLastKnownGoodVersionsData(data)` acting on the loaded
`last-known-good-versions.json` value, with the timestamp generator and its
call counter made explicit. -/
def prepareLastKnownGoodVersionsData (tsGen : Nat → String) (data : Snapshot)
    (lastKnownGoodVersions : KnownGoodRegistry) (tick : Nat) :
    Option (KnownGoodRegistry × Nat) :=
  reconcileChannels tsGen (lastKnownGoodVersions, tick) data.channels

/-- The persisted `known-good-versions.json` document: the flat
deduplicated catalog. -/
structure FlatCatalog where
  timestamp : String
  versions : List VerRev
deriving DecidableEq

/-- The comparator function literal passed to `Array.prototype.sort` in
`updateKnownGoodVersions`, read as "may stay before": it returns a
non-positive number exactly when `a` is older than `b` or the two version
strings are equal. -/
def catalogLe (a b : VerRev) : Bool :=
  isOlderVersion a.version b.version || a.version == b.version

/-- Stable insertion of one element in front of the first element it may
precede. -/
def insertSorted {α : Type} (le : α → α → Bool) (a : α) : List α → List α
  | [] => [a]
  | b :: l => if le a b then a :: b :: l else b :: insertSorted le a l

/-- Embedding of `Array.prototype.sort` as a comparison sort.  For a
comparator transitive and total on the array's elements every conformant
ECMAScript sort produces the same sorted sequence up to ties, which is all
the script relies on. -/
def sortByLe {α : Type} (le : α → α → Bool) : List α → List α
  | [] => []
  | a :: l => insertSorted le a (sortByLe le l)

/-- The insertion loop of `updateKnownGoodVersions`: walk the channel
entries; an entry whose version is in the `Set` of seen versions is
skipped; otherwise its version joins the set, the `{version, revision}`
pair is pushed onto the catalog sequence, and a fresh timestamp is
assigned. -/
def mergeChannelEntries (tsGen : Nat → String) :
    List VerRev → List String → List VerRev → String → Nat → List VerRev × String × Nat
  | [], _, acc, ts, tick => (acc, ts, tick)
  | e :: rest, seen, acc, ts, tick =>
    if seen.contains e.version then mergeChannelEntries tsGen rest seen acc ts tick
    else
      mergeChannelEntries tsGen rest (e.version :: seen) (acc ++ [⟨e.version, e.revision⟩])
        (tsGen tick) (tick + 1)

/-- `updateKnownGoodVersions(filePath, lastKnownGoodVersions)` acting on the
loaded catalog value: seed the `Set` with the versions already present,
insert the missing channel entries, then sort the whole sequence with the
version comparator. -/
def updateKnownGoodVersions (tsGen : Nat → String) (knownGoodVersions : FlatCatalog)
    (lastKnownGoodVersions : KnownGoodRegistry) (tick : Nat) : FlatCatalog × Nat :=
  let seen := knownGoodVersions.versions.map VerRev.version
  let r := mergeChannelEntries tsGen (lastKnownGoodVersions.channels.map Prod.snd) seen
    knownGoodVersions.versions knownGoodVersions.timestamp tick
  ({ timestamp := r.2.1, versions := sortByLe catalogLe r.1 }, r.2.2)

/-- One record of `latest-versions-per-milestone.json`. -/
structure MilestoneEntry where
  milestone : String
  version : String
  revision : String
deriving DecidableEq

/-- The persisted `latest-versions-per-milestone.json` document. -/
structure MilestoneRegistry where
  timestamp : String
  milestones : List (String × MilestoneEntry)
deriving DecidableEq

/-- Milestone key of a version: `version.split('.')[0]`. -/
def milestoneOf (version : String) : String :=
  String.mk ((splitDots version.toList).headD [])

/-- One iteration of the loop of `updateLatestVersionsPerMilestone`: for an
existing milestone key, overwrite `version`/`revision` (keeping the stored
`milestone` field) only when the stored version is older than the incoming
one; for a new key, insert the full `{milestone, version, revision}` record
at the end.  The Boolean is the `needsUpdate` flag. -/
def updateMilestone (st : List (String × MilestoneEntry) × Bool) (cd : VerRev) :
    List (String × MilestoneEntry) × Bool :=
  let m := milestoneOf cd.version
  match lookupA st.1 m with
  | some current =>
    if isOlderVersion current.version cd.version then
      (updateA st.1 m { current with version := cd.version, revision := cd.revision }, true)
    else st
  | none => (st.1 ++ [(m, ⟨m, cd.version, cd.revision⟩)], true)

/-- `updateLatestVersionsPerMilestone(filePath, lastKnownGoodVersionsData)`
acting on the loaded milestone registry: fold the channel entries through
`updateMilestone`, then assign one fresh timestamp iff `needsUpdate` was
set. -/
def updateLatestVersionsPerMilestone (tsGen : Nat → String) (reg : MilestoneRegistry)
    (lastKnownGoodVersions : KnownGoodRegistry) (tick : Nat) : MilestoneRegistry × Nat :=
  let r := lastKnownGoodVersions.channels.foldl (fun st cd => updateMilestone st cd.2)
    (reg.milestones, false)
  if r.2 then ({ timestamp := tsGen tick, milestones := r.1 }, tick + 1)
  else ({ reg with milestones := r.1 }, tick)

/-- The derived `latest-patch-versions-per-build.json` document. -/
structure BuildRegistry where
  timestamp : String
  builds : List (String × VerRev)
deriving DecidableEq

/-- Joins components back with dots (inverse of `splitDots` on its
images). -/
def joinDots : List (List Char) → List Char
  | [] => []
  | [c] => c
  | c :: rest => c ++ '.' :: joinDots rest

/-- The regex `/(?<build>.*)\.(?<patch>\d+)$/` of
`prepareLatestPatchVersionsPerBuild`, applied to a version string: it
matches exactly when the string has at least one dot and everything after
the last dot is one or more ASCII digits; the `build` group is everything
before that last dot.  On a non-matching version the script dereferences
`null.groups`, embedded as `none`. -/
def stripPatch (version : String) : Option String :=
  let parts := splitDots version.toList
  match parts.getLast? with
  | none => none
  | some lastPart =>
    if 2 ≤ parts.length && !lastPart.isEmpty && lastPart.all Char.isDigit then
      some (String.mk (joinDots parts.dropLast))
    else none

/-- One iteration of the loop of `prepareLatestPatchVersionsPerBuild` over
the catalog: extract the build key; replace the entry stored in the `Map`
only when the stored version is older than the incoming one; insert a new
key at the end. -/
def buildStep (m : List (String × VerRev)) (e : VerRev) : Option (List (String × VerRev)) :=
  match stripPatch e.version with
  | none => none
  | some build =>
    match lookupA m build with
    | some knownEntry =>
      if isOlderVersion knownEntry.version e.version then some (updateA m build e)
      else some m
    | none => some (m ++ [(build, e)])

/-- The loop of `prepareLatestPatchVersionsPerBuild` (a JavaScript `Map`
keeps insertion order, and `Map.set` on an existing key keeps its
position, which `updateA`/append mirror). -/
def buildFold : List (String × VerRev) → List VerRev → Option (List (String × VerRev))
  | m, [] => some m
  | m, e :: rest =>
    match buildStep m e with
    | none => none
    | some m' => buildFold m' rest

/-- `prepareLatestPatchVersionsPerBuild(knownGoodVersions)`: reduce the
catalog into the per-build map and wrap it with the catalog's timestamp
verbatim (the final object literal copies the `Map` in its iteration
order). -/
def prepareLatestPatchVersionsPerBuild (knownGoodVersions : FlatCatalog) :
    Option BuildRegistry :=
  (buildFold [] knownGoodVersions.versions).map
    (fun m => { timestamp := knownGoodVersions.timestamp, builds := m })

/-- One `{platform?, url}` download entry; platform-agnostic entries carry
no `platform` field. -/
structure DownloadEntry where
  platform : Option String
  url : String
deriving DecidableEq

/-- One record of a registry passed through `addDownloads`, restricted to
the fields the expander touches or must preserve: the `version` it reads,
the `revision` it must carry over, `extra` standing for any further
scalar fields of the concrete record shape (e.g. `milestone`), and the
`downloads` mapping it installs (overwriting any present one). -/
structure ManifestRecord where
  version : String
  revision : String
  extra : List (String × String)
  downloads : List (String × List DownloadEntry)
deriving DecidableEq

/-- A registry document as seen by `addDownloads`: the script iterates
`Object.values(copy[key])`, so the sub-collection named by `key` is
embedded directly as the list of its records in property order. -/
structure ManifestRegistry where
  timestamp : String
  records : List ManifestRecord
deriving DecidableEq

/-- The inner loop of `addDownloads` over the binary kinds for one record:
`chromedriver` and `chrome-headless-shell` are skipped when the record's
version predates their availability, `mojojs` is always skipped; every
surviving binary gets one `{platform, url}` entry per supported platform
(the platform-agnostic branch after the `mojojs` guard is kept although it
is unreachable, as in the source).  The external `makeDownloadUrl`
collaborator is the argument `mkUrl`, the hardcoded availability cutoffs
of the missing `is-older-version.mjs` module are `cdCutoff`/`hsCutoff`,
and the externally owned enumerations are `binaries`/`platforms`. -/
def addBinary (mkUrl : String → Option String → String → String)
    (cdCutoff hsCutoff : String) (platforms : List String) (version : String)
    (downloads : List (String × List DownloadEntry)) (binary : String) :
    List (String × List DownloadEntry) :=
  if binary == "chromedriver" && predatesAvailability cdCutoff version then downloads
  else if binary == "chrome-headless-shell" && predatesAvailability hsCutoff version then
    downloads
  else if binary == "mojojs" then downloads
  else if binary == "mojojs" then
    setA downloads binary [⟨none, mkUrl version none binary⟩]
  else
    setA downloads binary
      (platforms.map (fun p => ⟨some p, mkUrl version (some p) binary⟩))

def computeDownloads (mkUrl : String → Option String → String → String)
    (cdCutoff hsCutoff : String) (binaries platforms : List String)
    (version : String) : List (String × List DownloadEntry) :=
  binaries.foldl (addBinary mkUrl cdCutoff hsCutoff platforms version) []

/-- `structuredClone` on the JSON-like registry values: a deep copy of
plain data produces an equal value. -/
def structuredCloneRegistry (d : ManifestRegistry) : ManifestRegistry := d

/-- The per-record body of `addDownloads`: `channelData.downloads = {}`
followed by the binary loop, i.e. the record with its `downloads` field
replaced by the computed mapping. -/
def expandRecord (mkUrl : String → Option String → String → String)
    (cdCutoff hsCutoff : String) (binaries platforms : List String)
    (r : ManifestRecord) : ManifestRecord :=
  { r with downloads := computeDownloads mkUrl cdCutoff hsCutoff binaries platforms r.version }

/-- `addDownloads(data, key)`: clone the input, expand every record of the
clone, return the clone.  The result pairs the input object as it stands
after the call (the loop only ever writes into the clone) with the
returned manifest, so that non-mutation of the input is a stated fact
rather than a convention of the embedding. -/
def addDownloads (mkUrl : String → Option String → String → String)
    (cdCutoff hsCutoff : String) (binaries platforms : List String)
    (data : ManifestRegistry) : ManifestRegistry × ManifestRegistry :=
  let copy := structuredCloneRegistry data
  (data,
    { copy with
      records := copy.records.map (expandRecord mkUrl cdCutoff hsCutoff binaries platforms) })

/-- The per-build selection step of `prepareLatestPatchVersionsPerBuild`,
restricted to one build key: starting from the entry currently stored for
that key (if any), keep the stored entry unless the incoming entry is
strictly newer.  The reducer is proved to act, on each build key, exactly
as a fold of this step over the catalog entries sharing that key, which
also pins down the first-encountered-wins tie behaviour. -/
def bestForBuild (acc : Option VerRev) (e : VerRev) : Option VerRev :=
  match acc with
  | none => some e
  | some k => if isOlderVersion k.version e.version then some e else some k

example :
    prepareLastKnownGoodVersionsData (fun n => toString n)
      ⟨[⟨"Stable", "2.0.0.0", "r2", true⟩]⟩
      ⟨"t0", [("Stable", ⟨"1.0.0.0", "r1"⟩)]⟩ 0
      = some (⟨"0", [("Stable", ⟨"2.0.0.0", "r2"⟩)]⟩, 1) := by decide

example : isOlderVersion "120.0.6099.5" "120.0.6099.10" = true := by decide
example : isOlderVersion "120.0.6099.10" "120.0.6099.5" = false := by decide

example : stripPatch "120.0.1.5" = some "120.0.1" := by decide
example : stripPatch "120" = none := by decide
example : milestoneOf "121.0.2.1" = "121" := by decide

example :
    prepareLatestPatchVersionsPerBuild
      ⟨"T", [⟨"120.0.1.1", "r1"⟩, ⟨"120.0.1.5", "r5"⟩, ⟨"121.0.2.1", "r21"⟩]⟩
      = some ⟨"T", [("120.0.1", ⟨"120.0.1.5", "r5"⟩), ("121.0.2", ⟨"121.0.2.1", "r21"⟩)]⟩ := by
  decide

example :
    (updateKnownGoodVersions (fun n => toString n)
      ⟨"T", [⟨"120.0.1.1", "r1"⟩]⟩ ⟨"ts", [("Stable", ⟨"119.0.0.2", "r0"⟩)]⟩ 3).1.versions
      = [⟨"119.0.0.2", "r0"⟩, ⟨"120.0.1.1", "r1"⟩] := by decide

theorem lookupA_updateA_self {β : Type} (k : String) (v : β) :
    ∀ l : List (String × β), lookupA (updateA l k v) k = (lookupA l k).map (fun _ => v) := by
  intro l
  induction l with
  | nil => rfl
  | cons p l ih =>
    by_cases h : p.1 = k
    · simp [updateA, lookupA, h]
    · simp [updateA, lookupA, h, ih]

theorem lookupA_updateA_ne {β : Type} (k k' : String) (v : β) (hne : k' ≠ k) :
    ∀ l : List (String × β), lookupA (updateA l k v) k' = lookupA l k' := by
  intro l
  induction l with
  | nil => rfl
  | cons p l ih =>
    by_cases h : p.1 = k
    · have h2 : p.1 ≠ k' := by rw [h]; exact fun hc => hne hc.symm
      simp [updateA, lookupA, h, h2, ih, Ne.symm hne]
    · by_cases h3 : p.1 = k'
      · simp [updateA, lookupA, h, h3, hne, ih]
      · simp [updateA, lookupA, h, h3, ih]

theorem lookupA_updateA_isSome {β : Type} (k c : String) (v : β) (l : List (String × β)) :
    (lookupA (updateA l k v) c).isSome = (lookupA l c).isSome := by
  by_cases h : c = k
  · subst h; rw [lookupA_updateA_self]; cases lookupA l c <;> rfl
  · rw [lookupA_updateA_ne k c v h]

theorem lookupA_append_of_none {β : Type} (k : String) (l' : List (String × β)) :
    ∀ l : List (String × β), lookupA l k = none → lookupA (l ++ l') k = lookupA l' k := by
  intro l
  induction l with
  | nil => intro _; rfl
  | cons p l ih =>
    intro h
    by_cases hp : p.1 = k
    · simp [lookupA, hp] at h
    · simp [lookupA, hp] at h ⊢
      exact ih h

theorem lookupA_append_of_some {β : Type} (k : String) (v : β) (l' : List (String × β)) :
    ∀ l : List (String × β), lookupA l k = some v → lookupA (l ++ l') k = some v := by
  intro l
  induction l with
  | nil => intro h; cases h
  | cons p l ih =>
    intro h
    by_cases hp : p.1 = k
    · simp [lookupA, hp] at h ⊢
      exact h
    · simp [lookupA, hp] at h ⊢
      exact ih h

theorem lookupA_setA_ne {β : Type} (k k' : String) (v : β) (hne : k' ≠ k)
    (l : List (String × β)) : lookupA (setA l k v) k' = lookupA l k' := by
  unfold setA
  by_cases h : (lookupA l k).isSome
  · rw [if_pos h, lookupA_updateA_ne k k' v hne]
  · rw [if_neg h]
    cases hl : lookupA l k' with
    | none =>
      rw [lookupA_append_of_none k' _ l hl]
      simp [lookupA]
      exact fun hc => hne hc.symm
    | some w => exact lookupA_append_of_some k' w _ l hl

theorem isOlderL_irrefl : ∀ a : List Nat, isOlderL a a = false := by
  intro a
  induction a with
  | nil => rfl
  | cons x as ih => simp [isOlderL, ih]

theorem isOlderL_asymm : ∀ a b : List Nat, isOlderL a b = true → isOlderL b a = false := by
  intro a
  induction a with
  | nil => intro b h; cases b <;> simp [isOlderL] at h
  | cons x as ih =>
    intro b h
    cases b with
    | nil => simp [isOlderL] at h
    | cons y bs =>
      by_cases hxy : x < y
      · simp [isOlderL, hxy, Nat.lt_asymm hxy]
      · by_cases hyx : y < x
        · simp [isOlderL, hxy, hyx] at h
        · simp [isOlderL, hxy, hyx] at h ⊢
          exact ih bs h

theorem isOlderL_trans :
    ∀ a b c : List Nat, isOlderL a b = true → isOlderL b c = true → isOlderL a c = true := by
  intro a
  induction a with
  | nil => intro b c h1 _; cases b <;> simp [isOlderL] at h1
  | cons x as ih =>
    intro b c h1 h2
    cases b with
    | nil => simp [isOlderL] at h1
    | cons y bs =>
      cases c with
      | nil => simp [isOlderL] at h2
      | cons z cs =>
        by_cases hxy : x < y
        · by_cases hyz : y < z
          · simp [isOlderL, Nat.lt_trans hxy hyz]
          · by_cases hzy : z < y
            · simp [isOlderL, hyz, hzy] at h2
            · have hyz' : y = z := Nat.le_antisymm (Nat.le_of_not_lt hzy) (Nat.le_of_not_lt hyz)
              simp [isOlderL, hyz' ▸ hxy]
        · by_cases hyx : y < x
          · simp [isOlderL, hxy, hyx] at h1
          · have hxy' : x = y := Nat.le_antisymm (Nat.le_of_not_lt hyx) (Nat.le_of_not_lt hxy)
            simp [isOlderL, hxy, hyx] at h1
            by_cases hyz : y < z
            · simp [isOlderL, hxy' ▸ hyz]
            · by_cases hzy : z < y
              · simp [isOlderL, hyz, hzy] at h2
              · simp [isOlderL, hyz, hzy] at h2
                simp [isOlderL, hxy' ▸ hyz, hxy' ▸ hzy, ih bs cs h1 h2]

theorem isOlderVersion_trans {a b c : String} (h1 : isOlderVersion a b = true)
    (h2 : isOlderVersion b c = true) : isOlderVersion a c = true :=
  isOlderL_trans _ _ _ h1 h2

theorem isOlderVersion_irrefl (a : String) : isOlderVersion a a = false :=
  isOlderL_irrefl _

theorem isOlderVersion_asymm {a b : String} (h : isOlderVersion a b = true) :
    isOlderVersion b a = false :=
  isOlderL_asymm _ _ h

theorem catalogLe_trans {a b c : VerRev} (h1 : catalogLe a b = true)
    (h2 : catalogLe b c = true) : catalogLe a c = true := by
  unfold catalogLe at h1 h2 ⊢
  rw [Bool.or_eq_true] at h1 h2 ⊢
  rcases h1 with h1' | h1' <;> rcases h2 with h2' | h2'
  · exact Or.inl (isOlderVersion_trans h1' h2')
  · have he : b.version = c.version := by simpa using h2'
    exact Or.inl (he ▸ h1')
  · have he : a.version = b.version := by simpa using h1'
    exact Or.inl (he ▸ h2')
  · have he1 : a.version = b.version := by simpa using h1'
    have he2 : b.version = c.version := by simpa using h2'
    exact Or.inr (by simp [he1, he2])

theorem mem_insertSorted {α : Type} (le : α → α → Bool) (a x : α) :
    ∀ l : List α, x ∈ insertSorted le a l ↔ x = a ∨ x ∈ l := by
  intro l
  induction l with
  | nil => simp [insertSorted]
  | cons b l ih =>
    by_cases h : le a b
    · simp [insertSorted, h]
    · simp [insertSorted, h, ih]
      tauto

theorem insertSorted_perm {α : Type} (le : α → α → Bool) (a : α) :
    ∀ l : List α, (insertSorted le a l).Perm (a :: l) := by
  intro l
  induction l with
  | nil => exact List.Perm.refl _
  | cons b l ih =>
    by_cases h : le a b
    · rw [insertSorted, if_pos h]
    · rw [insertSorted, if_neg h]
      exact (ih.cons b).trans (List.Perm.swap a b l)

theorem pairwise_insertSorted {α : Type} (le : α → α → Bool)
    (htr : ∀ x y z, le x y = true → le y z = true → le x z = true) (a : α) :
    ∀ l : List α, l.Pairwise (fun x y => le x y = true) →
    (∀ x ∈ l, le a x = true ∨ le x a = true) →
    (insertSorted le a l).Pairwise (fun x y => le x y = true) := by
  intro l
  induction l with
  | nil => intro _ _; simp [insertSorted]
  | cons b l ih =>
    intro hp ha
    rw [List.pairwise_cons] at hp
    by_cases h : le a b
    · rw [insertSorted, if_pos h, List.pairwise_cons]
      refine ⟨?_, List.pairwise_cons.mpr hp⟩
      intro x hx
      rcases List.mem_cons.mp hx with rfl | hx
      · exact h
      · exact htr a b x h (hp.1 x hx)
    · rw [insertSorted, if_neg h, List.pairwise_cons]
      refine ⟨?_, ih hp.2 (fun x hx => ha x (List.mem_cons_of_mem b hx))⟩
      intro x hx
      rcases (mem_insertSorted le a x l).mp hx with hxa | hx
      · rcases ha b (List.mem_cons_self b l) with hab | hba
        · exact absurd hab h
        · rw [hxa]; exact hba
      · exact hp.1 x hx

theorem sortByLe_perm {α : Type} (le : α → α → Bool) :
    ∀ l : List α, (sortByLe le l).Perm l := by
  intro l
  induction l with
  | nil => exact List.Perm.refl _
  | cons a l ih => exact (insertSorted_perm le a _).trans (ih.cons a)

theorem pairwise_sortByLe {α : Type} (le : α → α → Bool)
    (htr : ∀ x y z, le x y = true → le y z = true → le x z = true) :
    ∀ l : List α, (∀ x ∈ l, ∀ y ∈ l, le x y = true ∨ le y x = true) →
    (sortByLe le l).Pairwise (fun x y => le x y = true) := by
  intro l
  induction l with
  | nil => intro _; simp [sortByLe]
  | cons a l ih =>
    intro htot
    refine pairwise_insertSorted le htr a _
      (ih (fun x hx y hy =>
        htot x (List.mem_cons_of_mem a hx) y (List.mem_cons_of_mem a hy))) ?_
    intro x hx
    have hx' : x ∈ l := ((sortByLe_perm le l).mem_iff).mp hx
    exact htot a (List.mem_cons_self a l) x (List.mem_cons_of_mem a hx')

theorem reconcileChannel_not_ok (tsGen : Nat → String) (st : KnownGoodRegistry × Nat)
    (cd : ChannelRecord) (h : cd.ok = false) : reconcileChannel tsGen st cd = some st := by
  simp [reconcileChannel, h]

theorem reconcileChannel_missing (tsGen : Nat → String) (st : KnownGoodRegistry × Nat)
    (cd : ChannelRecord) (h : cd.ok = true)
    (hl : lookupA st.1.channels cd.channel = none) :
    reconcileChannel tsGen st cd = none := by
  simp [reconcileChannel, h, hl]

theorem reconcileChannel_matching (tsGen : Nat → String) (st : KnownGoodRegistry × Nat)
    (cd : ChannelRecord) (kd : VerRev) (h : cd.ok = true)
    (hl : lookupA st.1.channels cd.channel = some kd)
    (h1 : kd.version = cd.version) (h2 : kd.revision = cd.revision) :
    reconcileChannel tsGen st cd = some st := by
  simp [reconcileChannel, h, hl, h1, h2]

theorem reconcileChannel_diff (tsGen : Nat → String) (st : KnownGoodRegistry × Nat)
    (cd : ChannelRecord) (kd : VerRev) (h : cd.ok = true)
    (hl : lookupA st.1.channels cd.channel = some kd)
    (hm : ¬(kd.version = cd.version ∧ kd.revision = cd.revision)) :
    reconcileChannel tsGen st cd =
      some ({ timestamp := tsGen st.2,
              channels := updateA st.1.channels cd.channel ⟨cd.version, cd.revision⟩ },
            st.2 + 1) := by
  have hb : (kd.version == cd.version && kd.revision == cd.revision) = false := by
    rw [Bool.eq_false_iff]
    intro hc
    exact hm (by simpa using hc)
  simp [reconcileChannel, h, hl, hb]

theorem reconcileChannel_isSome (tsGen : Nat → String) {st st' : KnownGoodRegistry × Nat}
    {cd : ChannelRecord} (h : reconcileChannel tsGen st cd = some st') (c : String) :
    (lookupA st'.1.channels c).isSome = (lookupA st.1.channels c).isSome := by
  by_cases hok : cd.ok
  · cases hl : lookupA st.1.channels cd.channel with
    | none => rw [reconcileChannel_missing tsGen st cd hok hl] at h; cases h
    | some kd =>
      by_cases hm : kd.version = cd.version ∧ kd.revision = cd.revision
      · rw [reconcileChannel_matching tsGen st cd kd hok hl hm.1 hm.2] at h
        cases h; rfl
      · rw [reconcileChannel_diff tsGen st cd kd hok hl hm] at h
        cases h
        exact lookupA_updateA_isSome _ _ _ _
  · have hok' : cd.ok = false := by simpa using hok
    rw [reconcileChannel_not_ok tsGen st cd hok'] at h
    cases h; rfl

theorem reconcileChannel_other (tsGen : Nat → String) {st st' : KnownGoodRegistry × Nat}
    {cd : ChannelRecord} (h : reconcileChannel tsGen st cd = some st') (c : String)
    (hc : c ≠ cd.channel) : lookupA st'.1.channels c = lookupA st.1.channels c := by
  by_cases hok : cd.ok
  · cases hl : lookupA st.1.channels cd.channel with
    | none => rw [reconcileChannel_missing tsGen st cd hok hl] at h; cases h
    | some kd =>
      by_cases hm : kd.version = cd.version ∧ kd.revision = cd.revision
      · rw [reconcileChannel_matching tsGen st cd kd hok hl hm.1 hm.2] at h
        cases h; rfl
      · rw [reconcileChannel_diff tsGen st cd kd hok hl hm] at h
        cases h
        exact lookupA_updateA_ne cd.channel c _ hc _
  · have hok' : cd.ok = false := by simpa using hok
    rw [reconcileChannel_not_ok tsGen st cd hok'] at h
    cases h; rfl

theorem reconcileChannel_post (tsGen : Nat → String) {st st' : KnownGoodRegistry × Nat}
    {cd : ChannelRecord} (hok : cd.ok = true)
    (h : reconcileChannel tsGen st cd = some st') :
    lookupA st'.1.channels cd.channel = some ⟨cd.version, cd.revision⟩ := by
  cases hl : lookupA st.1.channels cd.channel with
  | none => rw [reconcileChannel_missing tsGen st cd hok hl] at h; cases h
  | some kd =>
    by_cases hm : kd.version = cd.version ∧ kd.revision = cd.revision
    · rw [reconcileChannel_matching tsGen st cd kd hok hl hm.1 hm.2] at h
      cases h
      rw [hl]
      cases kd
      simp only at hm
      rw [hm.1, hm.2]
    · rw [reconcileChannel_diff tsGen st cd kd hok hl hm] at h
      cases h
      simp only
      rw [lookupA_updateA_self, hl]
      rfl

theorem reconcileChannels_cons (tsGen : Nat → String) (st : KnownGoodRegistry × Nat)
    (cd : ChannelRecord) (rest : List ChannelRecord) :
    reconcileChannels tsGen st (cd :: rest) =
      match reconcileChannel tsGen st cd with
      | none => none
      | some st' => reconcileChannels tsGen st' rest := rfl

theorem reconcileChannels_isSome (tsGen : Nat → String) :
    ∀ (l : List ChannelRecord) (st st' : KnownGoodRegistry × Nat),
    reconcileChannels tsGen st l = some st' →
    ∀ c, (lookupA st'.1.channels c).isSome = (lookupA st.1.channels c).isSome := by
  intro l
  induction l with
  | nil => intro st st' h c; cases h; rfl
  | cons cd rest ih =>
    intro st st' h c
    rw [reconcileChannels_cons] at h
    cases hst : reconcileChannel tsGen st cd with
    | none => rw [hst] at h; cases h
    | some st1 =>
      rw [hst] at h
      rw [ih st1 st' h c, reconcileChannel_isSome tsGen hst c]

theorem reconcileChannels_other (tsGen : Nat → String) :
    ∀ (l : List ChannelRecord) (st st' : KnownGoodRegistry × Nat),
    reconcileChannels tsGen st l = some st' →
    ∀ c, c ∉ (l.filter (fun cd => cd.ok)).map ChannelRecord.channel →
    lookupA st'.1.channels c = lookupA st.1.channels c := by
  intro l
  induction l with
  | nil => intro st st' h c _; cases h; rfl
  | cons cd rest ih =>
    intro st st' h c hc
    rw [reconcileChannels_cons] at h
    cases hst : reconcileChannel tsGen st cd with
    | none => rw [hst] at h; cases h
    | some st1 =>
      rw [hst] at h
      by_cases hok : cd.ok
      · have hfc : (cd :: rest).filter (fun cd => cd.ok) = cd :: rest.filter (fun cd => cd.ok) := by
          simp [List.filter, hok]
        rw [hfc, List.map_cons] at hc
        have hc1 : c ≠ cd.channel := fun he => hc (by rw [he]; exact List.mem_cons_self _ _)
        have hc2 : c ∉ (rest.filter (fun cd => cd.ok)).map ChannelRecord.channel :=
          fun hm => hc (List.mem_cons_of_mem _ hm)
        rw [ih st1 st' h c hc2, reconcileChannel_other tsGen hst c hc1]
      · have hok' : cd.ok = false := by simpa using hok
        rw [reconcileChannel_not_ok tsGen st cd hok'] at hst
        cases hst
        have hfc : (cd :: rest).filter (fun cd => cd.ok) = rest.filter (fun cd => cd.ok) := by
          simp [List.filter, hok']
        rw [hfc] at hc
        exact ih _ st' h c hc

theorem reconcileChannels_missing (tsGen : Nat → String) :
    ∀ (l : List ChannelRecord) (st : KnownGoodRegistry × Nat) (cd : ChannelRecord),
    cd ∈ l → cd.ok = true → lookupA st.1.channels cd.channel = none →
    reconcileChannels tsGen st l = none := by
  intro l
  induction l with
  | nil => intro st cd hm; cases hm
  | cons hd rest ih =>
    intro st cd hm hok hl
    rw [reconcileChannels_cons]
    rcases List.mem_cons.mp hm with rfl | hm'
    · rw [reconcileChannel_missing tsGen st cd hok hl]
    · cases hst : reconcileChannel tsGen st hd with
      | none => rfl
      | some st1 =>
        have hl1 : lookupA st1.1.channels cd.channel = none := by
          have := reconcileChannel_isSome tsGen hst cd.channel
          rw [hl] at this
          cases hx : lookupA st1.1.channels cd.channel with
          | none => rfl
          | some w => rw [hx] at this; cases this
        exact ih st1 cd hm' hok hl1

theorem reconcileChannels_post (tsGen : Nat → String) :
    ∀ (l : List ChannelRecord) (st st' : KnownGoodRegistry × Nat),
    reconcileChannels tsGen st l = some st' →
    ((l.filter (fun cd => cd.ok)).map ChannelRecord.channel).Nodup →
    ∀ cd ∈ l, cd.ok = true →
    lookupA st'.1.channels cd.channel = some ⟨cd.version, cd.revision⟩ := by
  intro l
  induction l with
  | nil => intro st st' _ _ cd hm; cases hm
  | cons hd rest ih =>
    intro st st' h hnd cd hm hok
    rw [reconcileChannels_cons] at h
    cases hst : reconcileChannel tsGen st hd with
    | none => rw [hst] at h; cases h
    | some st1 =>
      rw [hst] at h
      by_cases hhd : hd.ok
      · have hfc : (hd :: rest).filter (fun cd => cd.ok) = hd :: rest.filter (fun cd => cd.ok) := by
          simp [List.filter, hhd]
        rw [hfc, List.map_cons, List.nodup_cons] at hnd
        rcases List.mem_cons.mp hm with rfl | hm'
        · rw [reconcileChannels_other tsGen rest st1 st' h cd.channel hnd.1]
          exact reconcileChannel_post tsGen hok hst
        · exact ih st1 st' h hnd.2 cd hm' hok
      · have hok' : hd.ok = false := by simpa using hhd
        rw [reconcileChannel_not_ok tsGen st hd hok'] at hst
        cases hst
        have hfc : (hd :: rest).filter (fun cd => cd.ok) = rest.filter (fun cd => cd.ok) := by
          simp [List.filter, hok']
        rw [hfc] at hnd
        rcases List.mem_cons.mp hm with rfl | hm'
        · rw [hok'] at hok; cases hok
        · exact ih _ st' h hnd cd hm' hok

theorem reconcileChannels_id (tsGen : Nat → String) :
    ∀ (l : List ChannelRecord) (st : KnownGoodRegistry × Nat),
    (∀ cd ∈ l, cd.ok = true →
      lookupA st.1.channels cd.channel = some ⟨cd.version, cd.revision⟩) →
    reconcileChannels tsGen st l = some st := by
  intro l
  induction l with
  | nil => intro st _; rfl
  | cons hd rest ih =>
    intro st hpost
    rw [reconcileChannels_cons]
    by_cases hhd : hd.ok
    · rw [reconcileChannel_matching tsGen st hd ⟨hd.version, hd.revision⟩ hhd
        (hpost hd (List.mem_cons_self hd rest) hhd) rfl rfl]
      exact ih st (fun cd hm hok => hpost cd (List.mem_cons_of_mem hd hm) hok)
    · have hok' : hd.ok = false := by simpa using hhd
      rw [reconcileChannel_not_ok tsGen st hd hok']
      exact ih st (fun cd hm hok => hpost cd (List.mem_cons_of_mem hd hm) hok)

theorem reconcileChannels_filter_ok (tsGen : Nat → String) :
    ∀ (l : List ChannelRecord) (st : KnownGoodRegistry × Nat),
    reconcileChannels tsGen st l =
      reconcileChannels tsGen st (l.filter (fun cd => cd.ok)) := by
  intro l
  induction l with
  | nil => intro st; rfl
  | cons hd rest ih =>
    intro st
    by_cases hhd : hd.ok
    · have hfc : (hd :: rest).filter (fun cd => cd.ok) = hd :: rest.filter (fun cd => cd.ok) := by
        simp [List.filter, hhd]
      rw [hfc, reconcileChannels_cons, reconcileChannels_cons]
      cases hst : reconcileChannel tsGen st hd with
      | none => rfl
      | some st1 => exact ih st1
    · have hok' : hd.ok = false := by simpa using hhd
      have hfc : (hd :: rest).filter (fun cd => cd.ok) = rest.filter (fun cd => cd.ok) := by
        simp [List.filter, hok']
      rw [hfc, reconcileChannels_cons, reconcileChannel_not_ok tsGen st hd hok']
      exact ih st

/-- C1 counterexample: a snapshot in which two ok channels both differ from
the persisted registry makes `prepareLastKnownGoodVersionsData` assign a
fresh timestamp twice — the returned tick is 2, not 1, and the stored
timestamp is the second generated value `tsGen 1`, not the first — so the
registry's timestamp is not bumped exactly once per run; it is bumped once
per changed channel. -/
theorem reconciler_timestamp_bump_counterexample :
    prepareLastKnownGoodVersionsData (fun n => toString n)
      ⟨[⟨"Stable", "2.0.0.0", "s2", true⟩, ⟨"Beta", "3.0.0.0", "b2", true⟩]⟩
      ⟨"t0", [("Stable", ⟨"1.0.0.0", "s1"⟩), ("Beta", ⟨"1.0.0.0", "b1"⟩)]⟩ 0
      = some (⟨"1", [("Stable", ⟨"2.0.0.0", "s2"⟩), ("Beta", ⟨"3.0.0.0", "b2"⟩)]⟩, 2) ∧
    (2 : Nat) ≠ 1 ∧ ((fun n : Nat => toString n) 1 ≠ (fun n : Nat => toString n) 0) := by
  exact ⟨by decide, by decide, by decide⟩

/-- C1 (amended): the Channel Snapshot Reconciler assigns a fresh timestamp
once per changed channel, not once per run: an `ok=false` channel is a
no-op, an ok channel whose `(version, revision)` pair matches the persisted
entry is a no-op, and an ok channel whose pair differs consumes exactly one
fresh timestamp and stores it; when no channel differs, the registry (its
timestamp included) is returned unchanged and no timestamp is generated. -/
theorem reconciler_timestamp_per_channel (tsGen : Nat → String)
    (st : KnownGoodRegistry × Nat) (cd : ChannelRecord) (data : Snapshot)
    (reg : KnownGoodRegistry) (tick : Nat) :
    (cd.ok = false → reconcileChannel tsGen st cd = some st) ∧
    (∀ kd : VerRev, cd.ok = true → lookupA st.1.channels cd.channel = some kd →
      kd.version = cd.version → kd.revision = cd.revision →
      reconcileChannel tsGen st cd = some st) ∧
    (∀ kd : VerRev, cd.ok = true → lookupA st.1.channels cd.channel = some kd →
      ¬(kd.version = cd.version ∧ kd.revision = cd.revision) →
      reconcileChannel tsGen st cd =
        some ({ timestamp := tsGen st.2,
                channels := updateA st.1.channels cd.channel ⟨cd.version, cd.revision⟩ },
              st.2 + 1)) ∧
    ((∀ cd' ∈ data.channels, cd'.ok = true →
        lookupA reg.channels cd'.channel = some ⟨cd'.version, cd'.revision⟩) →
      prepareLastKnownGoodVersionsData tsGen data reg tick = some (reg, tick)) := by
  refine ⟨fun h => reconcileChannel_not_ok tsGen st cd h,
    fun kd h hl h1 h2 => reconcileChannel_matching tsGen st cd kd h hl h1 h2,
    fun kd h hl hm => reconcileChannel_diff tsGen st cd kd h hl hm,
    fun hpost => reconcileChannels_id tsGen data.channels (reg, tick) hpost⟩

/-- C1 witness: the amended theorem evaluated on concrete channels — an
`ok=false` channel and a matching channel are no-ops, a differing channel
consumes exactly one timestamp, and a fully matching snapshot returns the
registry and tick unchanged. -/
theorem reconciler_timestamp_per_channel_witness :
    reconcileChannel (fun n => toString n) (⟨"t0", [("Stable", ⟨"1.0.0.0", "s1"⟩)]⟩, 5)
      ⟨"Stable", "2.0.0.0", "s2", false⟩ = some (⟨"t0", [("Stable", ⟨"1.0.0.0", "s1"⟩)]⟩, 5) ∧
    reconcileChannel (fun n => toString n) (⟨"t0", [("Stable", ⟨"1.0.0.0", "s1"⟩)]⟩, 5)
      ⟨"Stable", "1.0.0.0", "s1", true⟩ = some (⟨"t0", [("Stable", ⟨"1.0.0.0", "s1"⟩)]⟩, 5) ∧
    reconcileChannel (fun n => toString n) (⟨"t0", [("Stable", ⟨"1.0.0.0", "s1"⟩)]⟩, 5)
      ⟨"Stable", "2.0.0.0", "s2", true⟩
      = some (⟨"5", [("Stable", ⟨"2.0.0.0", "s2"⟩)]⟩, 6) ∧
    prepareLastKnownGoodVersionsData (fun n => toString n)
      ⟨[⟨"Stable", "1.0.0.0", "s1", true⟩]⟩ ⟨"t0", [("Stable", ⟨"1.0.0.0", "s1"⟩)]⟩ 7
      = some (⟨"t0", [("Stable", ⟨"1.0.0.0", "s1"⟩)]⟩, 7) := by
  refine ⟨(reconciler_timestamp_per_channel (fun n => toString n)
      (⟨"t0", [("Stable", ⟨"1.0.0.0", "s1"⟩)]⟩, 5) ⟨"Stable", "2.0.0.0", "s2", false⟩
      ⟨[]⟩ ⟨"t0", []⟩ 0).1 rfl,
    (reconciler_timestamp_per_channel (fun n => toString n)
      (⟨"t0", [("Stable", ⟨"1.0.0.0", "s1"⟩)]⟩, 5) ⟨"Stable", "1.0.0.0", "s1", true⟩
      ⟨[]⟩ ⟨"t0", []⟩ 0).2.1 ⟨"1.0.0.0", "s1"⟩ rfl (by decide) rfl rfl,
    ?_, ?_⟩
  · have h := (reconciler_timestamp_per_channel (fun n => toString n)
      (⟨"t0", [("Stable", ⟨"1.0.0.0", "s1"⟩)]⟩, 5) ⟨"Stable", "2.0.0.0", "s2", true⟩
      ⟨[]⟩ ⟨"t0", []⟩ 0).2.2.1 ⟨"1.0.0.0", "s1"⟩ rfl (by decide) (by decide)
    rw [h]
    decide
  · exact (reconciler_timestamp_per_channel (fun n => toString n)
      (⟨"t0", []⟩, 0) ⟨"", "", "", false⟩
      ⟨[⟨"Stable", "1.0.0.0", "s1", true⟩]⟩ ⟨"t0", [("Stable", ⟨"1.0.0.0", "s1"⟩)]⟩ 7).2.2.2
      (by intro cd' hm hok; rcases List.mem_cons.mp hm with rfl | hx
          · decide
          · cases hx)

/-- C4: the Channel Snapshot Reconciler is idempotent — if a run over a
snapshot whose ok channels carry pairwise distinct channel names succeeds
and produces `reg1`, then a second run with the identical snapshot returns
`reg1` itself, with the tick counter untouched (no timestamp is generated
and no channel entry changes). -/
theorem reconciler_idempotent (tsGen : Nat → String) (data : Snapshot)
    (reg reg1 : KnownGoodRegistry) (tick t1 tick2 : Nat)
    (hnd : ((data.channels.filter (fun cd => cd.ok)).map ChannelRecord.channel).Nodup)
    (h1 : prepareLastKnownGoodVersionsData tsGen data reg tick = some (reg1, t1)) :
    prepareLastKnownGoodVersionsData tsGen data reg1 tick2 = some (reg1, tick2) := by
  unfold prepareLastKnownGoodVersionsData at h1 ⊢
  apply reconcileChannels_id
  intro cd hcd hok
  exact reconcileChannels_post tsGen data.channels (reg, tick) (reg1, t1) h1 hnd cd hcd hok

/-- C4 witness: a concrete first run changes the Stable entry; the second
run with the same snapshot returns the produced registry unchanged. -/
theorem reconciler_idempotent_witness :
    prepareLastKnownGoodVersionsData (fun n => toString n)
      ⟨[⟨"Stable", "2.0.0.0", "s2", true⟩, ⟨"Beta", "1.0.0.0", "b1", false⟩]⟩
      ⟨"1", [("Stable", ⟨"2.0.0.0", "s2"⟩), ("Beta", ⟨"0.0.0.9", "b0"⟩)]⟩ 9
      = some (⟨"1", [("Stable", ⟨"2.0.0.0", "s2"⟩), ("Beta", ⟨"0.0.0.9", "b0"⟩)]⟩, 9) := by
  exact reconciler_idempotent (fun n => toString n)
    ⟨[⟨"Stable", "2.0.0.0", "s2", true⟩, ⟨"Beta", "1.0.0.0", "b1", false⟩]⟩
    ⟨"t0", [("Stable", ⟨"1.0.0.0", "s1"⟩), ("Beta", ⟨"0.0.0.9", "b0"⟩)]⟩
    ⟨"1", [("Stable", ⟨"2.0.0.0", "s2"⟩), ("Beta", ⟨"0.0.0.9", "b0"⟩)]⟩
    1 2 9 (by decide) (by decide)

/-- C9: channels with `ok=false` are left untouched — the whole run is
unchanged if the `ok=false` records are removed from the snapshot, and
after a successful run every channel entry whose name is not among the
`ok=true` records' channel names holds exactly its previous
`(version, revision)` value (in particular an `ok=false` channel never
contributes a timestamp change, since the filtered run is the same run). -/
theorem reconciler_skips_not_ok (tsGen : Nat → String) (data : Snapshot)
    (reg : KnownGoodRegistry) (tick : Nat) :
    prepareLastKnownGoodVersionsData tsGen data reg tick =
      prepareLastKnownGoodVersionsData tsGen ⟨data.channels.filter (fun cd => cd.ok)⟩ reg tick ∧
    (∀ (reg' : KnownGoodRegistry) (t' : Nat),
      prepareLastKnownGoodVersionsData tsGen data reg tick = some (reg', t') →
      ∀ c, c ∉ (data.channels.filter (fun cd => cd.ok)).map ChannelRecord.channel →
        lookupA reg'.channels c = lookupA reg.channels c) := by
  constructor
  · exact reconcileChannels_filter_ok tsGen data.channels (reg, tick)
  · intro reg' t' h c hc
    exact reconcileChannels_other tsGen data.channels (reg, tick) (reg', t') h c hc

/-- C9 witness: with a snapshot holding one differing `ok=false` channel
and one differing `ok=true` channel, the run equals the run on the filtered
snapshot, and the `ok=false` channel's entry is untouched. -/
theorem reconciler_skips_not_ok_witness :
    prepareLastKnownGoodVersionsData (fun n => toString n)
      ⟨[⟨"Beta", "9.0.0.0", "b9", false⟩, ⟨"Stable", "2.0.0.0", "s2", true⟩]⟩
      ⟨"t0", [("Stable", ⟨"1.0.0.0", "s1"⟩), ("Beta", ⟨"0.0.0.9", "b0"⟩)]⟩ 0
      = prepareLastKnownGoodVersionsData (fun n => toString n)
        ⟨[⟨"Stable", "2.0.0.0", "s2", true⟩]⟩
        ⟨"t0", [("Stable", ⟨"1.0.0.0", "s1"⟩), ("Beta", ⟨"0.0.0.9", "b0"⟩)]⟩ 0 ∧
    lookupA [("Stable", (⟨"2.0.0.0", "s2"⟩ : VerRev)), ("Beta", ⟨"0.0.0.9", "b0"⟩)] "Beta"
      = lookupA [("Stable", (⟨"1.0.0.0", "s1"⟩ : VerRev)), ("Beta", ⟨"0.0.0.9", "b0"⟩)] "Beta" := by
  have h := reconciler_skips_not_ok (fun n => toString n)
    ⟨[⟨"Beta", "9.0.0.0", "b9", false⟩, ⟨"Stable", "2.0.0.0", "s2", true⟩]⟩
    ⟨"t0", [("Stable", ⟨"1.0.0.0", "s1"⟩), ("Beta", ⟨"0.0.0.9", "b0"⟩)]⟩ 0
  refine ⟨?_, ?_⟩
  · have := h.1
    simpa using this
  · have h2 := h.2 ⟨"0", [("Stable", ⟨"2.0.0.0", "s2"⟩), ("Beta", ⟨"0.0.0.9", "b0"⟩)]⟩ 1
      (by decide) "Beta" (by decide)
    simpa using h2

/-- C10: a snapshot containing an `ok=true` channel whose name is missing
from the persisted registry makes the reconciler fail (it dereferences the
missing entry, embedded as the run returning `none`), and every successful
run leaves the set of channel keys of the registry invariant — the
reconciler never inserts a channel key. -/
theorem reconciler_missing_channel (tsGen : Nat → String) (data : Snapshot)
    (reg : KnownGoodRegistry) (tick : Nat) :
    ((∃ cd ∈ data.channels, cd.ok = true ∧ lookupA reg.channels cd.channel = none) →
      prepareLastKnownGoodVersionsData tsGen data reg tick = none) ∧
    (∀ (reg' : KnownGoodRegistry) (t' : Nat),
      prepareLastKnownGoodVersionsData tsGen data reg tick = some (reg', t') →
      ∀ c, (lookupA reg'.channels c).isSome = (lookupA reg.channels c).isSome) := by
  constructor
  · rintro ⟨cd, hm, hok, hl⟩
    exact reconcileChannels_missing tsGen data.channels (reg, tick) cd hm hok hl
  · intro reg' t' h c
    exact reconcileChannels_isSome tsGen data.channels (reg, tick) (reg', t') h c

/-- C10 witness: a snapshot with an ok `Dev` channel unknown to the
registry makes the run fail, and a successful concrete run leaves the key
set intact. -/
theorem reconciler_missing_channel_witness :
    prepareLastKnownGoodVersionsData (fun n => toString n)
      ⟨[⟨"Dev", "1.0.0.0", "d1", true⟩]⟩ ⟨"t0", [("Stable", ⟨"1.0.0.0", "s1"⟩)]⟩ 0 = none ∧
    (lookupA [("Stable", (⟨"2.0.0.0", "s2"⟩ : VerRev))] "Beta").isSome
      = (lookupA [("Stable", (⟨"1.0.0.0", "s1"⟩ : VerRev))] "Beta").isSome := by
  constructor
  · exact (reconciler_missing_channel (fun n => toString n)
      ⟨[⟨"Dev", "1.0.0.0", "d1", true⟩]⟩ ⟨"t0", [("Stable", ⟨"1.0.0.0", "s1"⟩)]⟩ 0).1
      ⟨⟨"Dev", "1.0.0.0", "d1", true⟩, List.mem_cons_self _ _, rfl, by decide⟩
  · exact (reconciler_missing_channel (fun n => toString n)
      ⟨[⟨"Stable", "2.0.0.0", "s2", true⟩]⟩ ⟨"t0", [("Stable", ⟨"1.0.0.0", "s1"⟩)]⟩ 0).2
      ⟨"0", [("Stable", ⟨"2.0.0.0", "s2"⟩)]⟩ 1 (by decide) "Beta"

theorem VerRev.eta (e : VerRev) : (⟨e.version, e.revision⟩ : VerRev) = e := rfl

theorem mergeChannelEntries_decomp (tsGen : Nat → String) :
    ∀ (entries : List VerRev) (seen : List String) (acc : List VerRev) (ts : String) (tick : Nat),
    ∃ added : List VerRev,
      (mergeChannelEntries tsGen entries seen acc ts tick).1 = acc ++ added ∧
      ∀ e ∈ added, e ∈ entries ∧ e.version ∉ seen := by
  intro entries
  induction entries with
  | nil =>
    intro seen acc ts tick
    exact ⟨[], by simp [mergeChannelEntries], by simp⟩
  | cons e rest ih =>
    intro seen acc ts tick
    by_cases hs : seen.contains e.version
    · rcases ih seen acc ts tick with ⟨added, h1, h2⟩
      refine ⟨added, ?_, ?_⟩
      · rw [mergeChannelEntries, if_pos hs]
        exact h1
      · intro x hx
        exact ⟨List.mem_cons_of_mem e (h2 x hx).1, (h2 x hx).2⟩
    · rcases ih (e.version :: seen) (acc ++ [⟨e.version, e.revision⟩]) (tsGen tick) (tick + 1)
        with ⟨added, h1, h2⟩
      refine ⟨⟨e.version, e.revision⟩ :: added, ?_, ?_⟩
      · rw [mergeChannelEntries, if_neg hs, h1]
        simp
      · intro x hx
        have hns : e.version ∉ seen := by
          intro hmem
          exact hs (by simpa using hmem)
        rcases List.mem_cons.mp hx with hxe | hx'
        · rw [hxe, VerRev.eta]
          exact ⟨List.mem_cons_self e rest, hns⟩
        · have h3 := h2 x hx'
          exact ⟨List.mem_cons_of_mem e h3.1, fun hm => h3.2 (List.mem_cons_of_mem _ hm)⟩

theorem mergeChannelEntries_nodup (tsGen : Nat → String) :
    ∀ (entries : List VerRev) (seen : List String) (acc : List VerRev) (ts : String) (tick : Nat),
    (acc.map VerRev.version).Nodup → (∀ v ∈ acc.map VerRev.version, v ∈ seen) →
    ((mergeChannelEntries tsGen entries seen acc ts tick).1.map VerRev.version).Nodup := by
  intro entries
  induction entries with
  | nil =>
    intro seen acc ts tick hnd _
    simpa [mergeChannelEntries] using hnd
  | cons e rest ih =>
    intro seen acc ts tick hnd hsub
    by_cases hs : seen.contains e.version
    · rw [mergeChannelEntries, if_pos hs]
      exact ih seen acc ts tick hnd hsub
    · rw [mergeChannelEntries, if_neg hs]
      have hns : e.version ∉ seen := by
        intro hmem
        exact hs (by simpa using hmem)
      apply ih
      · rw [List.map_append]
        rw [List.nodup_append]
        refine ⟨hnd, by simp, ?_⟩
        intro v hv hv'
        have : v = e.version := by simpa using hv'
        exact hns (this ▸ hsub v hv)
      · intro v hv
        rw [List.map_append] at hv
        rcases List.mem_append.mp hv with hv' | hv'
        · exact List.mem_cons_of_mem _ (hsub v hv')
        · have : v = e.version := by simpa using hv'
          rw [this]
          exact List.mem_cons_self _ _

/-- C2: after the Flat Catalog Merger runs, the catalog's version keys are
pairwise distinct (given the catalog starts duplicate-free) and the
sequence is non-decreasing under the version comparator (given the
comparator is total across the versions in play, which holds for the
well-formed equal-length version strings of the data model); moreover the
run only appends entries drawn from the channel registry whose version
string was not already present in the catalog. -/
theorem catalog_merge_invariants (tsGen : Nat → String) (kgv : FlatCatalog)
    (lkgv : KnownGoodRegistry) (tick : Nat)
    (hnd : (kgv.versions.map VerRev.version).Nodup)
    (htot : ∀ a ∈ kgv.versions ++ lkgv.channels.map Prod.snd,
      ∀ b ∈ kgv.versions ++ lkgv.channels.map Prod.snd,
      catalogLe a b = true ∨ catalogLe b a = true) :
    (((updateKnownGoodVersions tsGen kgv lkgv tick).1.versions.map VerRev.version).Nodup ∧
      (updateKnownGoodVersions tsGen kgv lkgv tick).1.versions.Pairwise
        (fun a b => catalogLe a b = true)) ∧
    ∃ added : List VerRev,
      (updateKnownGoodVersions tsGen kgv lkgv tick).1.versions.Perm (kgv.versions ++ added) ∧
      ∀ e ∈ added, e ∈ lkgv.channels.map Prod.snd ∧
        e.version ∉ kgv.versions.map VerRev.version := by
  rcases mergeChannelEntries_decomp tsGen (lkgv.channels.map Prod.snd)
    (kgv.versions.map VerRev.version) kgv.versions kgv.timestamp tick with ⟨added, hdec, hadd⟩
  have hverseq :
      (updateKnownGoodVersions tsGen kgv lkgv tick).1.versions =
        sortByLe catalogLe
          (mergeChannelEntries tsGen (lkgv.channels.map Prod.snd)
            (kgv.versions.map VerRev.version) kgv.versions kgv.timestamp tick).1 := rfl
  have hperm :
      (updateKnownGoodVersions tsGen kgv lkgv tick).1.versions.Perm (kgv.versions ++ added) := by
    rw [hverseq, hdec]
    exact sortByLe_perm catalogLe _
  have hprenodup :
      ((mergeChannelEntries tsGen (lkgv.channels.map Prod.snd)
        (kgv.versions.map VerRev.version) kgv.versions kgv.timestamp tick).1.map
          VerRev.version).Nodup :=
    mergeChannelEntries_nodup tsGen _ _ _ _ _ hnd (fun v hv => hv)
  refine ⟨⟨?_, ?_⟩, added, hperm, fun e he => hadd e he⟩
  · rw [hverseq]
    exact (((sortByLe_perm catalogLe _).map VerRev.version).symm).nodup hprenodup
  · rw [hverseq]
    apply pairwise_sortByLe catalogLe (fun x y z h1 h2 => catalogLe_trans h1 h2)
    intro x hx y hy
    rw [hdec] at hx hy
    refine htot x ?_ y ?_
    · rcases List.mem_append.mp hx with h | h
      · exact List.mem_append.mpr (Or.inl h)
      · exact List.mem_append.mpr (Or.inr (hadd x h).1)
    · rcases List.mem_append.mp hy with h | h
      · exact List.mem_append.mpr (Or.inl h)
      · exact List.mem_append.mpr (Or.inr (hadd y h).1)

/-- C2 witness: the merger evaluated on a concrete catalog and channel
registry — the new version is appended and sorted in, keys stay distinct,
and the already-present channel version is not appended again. -/
theorem catalog_merge_invariants_witness :
    (((updateKnownGoodVersions (fun n => toString n) ⟨"T", [⟨"120.0.1.1", "r1"⟩]⟩
        ⟨"ts", [("Stable", ⟨"119.0.0.2", "r0"⟩), ("Beta", ⟨"120.0.1.1", "r1"⟩)]⟩ 3).1.versions.map
          VerRev.version).Nodup ∧
      (updateKnownGoodVersions (fun n => toString n) ⟨"T", [⟨"120.0.1.1", "r1"⟩]⟩
        ⟨"ts", [("Stable", ⟨"119.0.0.2", "r0"⟩), ("Beta", ⟨"120.0.1.1", "r1"⟩)]⟩ 3).1.versions.Pairwise
        (fun a b => catalogLe a b = true)) ∧
    ∃ added : List VerRev,
      (updateKnownGoodVersions (fun n => toString n) ⟨"T", [⟨"120.0.1.1", "r1"⟩]⟩
        ⟨"ts", [("Stable", ⟨"119.0.0.2", "r0"⟩), ("Beta", ⟨"120.0.1.1", "r1"⟩)]⟩ 3).1.versions.Perm
        ([⟨"120.0.1.1", "r1"⟩] ++ added) ∧
      ∀ e ∈ added, e ∈ ([("Stable", (⟨"119.0.0.2", "r0"⟩ : VerRev)),
          ("Beta", ⟨"120.0.1.1", "r1"⟩)].map Prod.snd) ∧
        e.version ∉ [⟨"120.0.1.1", "r1"⟩].map VerRev.version :=
  catalog_merge_invariants (fun n => toString n) ⟨"T", [⟨"120.0.1.1", "r1"⟩]⟩
    ⟨"ts", [("Stable", ⟨"119.0.0.2", "r0"⟩), ("Beta", ⟨"120.0.1.1", "r1"⟩)]⟩ 3
    (by decide) (by decide)

theorem updateMilestone_other (st : List (String × MilestoneEntry) × Bool) (cd : VerRev)
    (m' : String) (hm : m' ≠ milestoneOf cd.version) :
    lookupA (updateMilestone st cd).1 m' = lookupA st.1 m' := by
  unfold updateMilestone
  cases hl : lookupA st.1 (milestoneOf cd.version) with
  | some current =>
    by_cases hlt : isOlderVersion current.version cd.version
    · simp only [hl, hlt, if_true]
      exact lookupA_updateA_ne _ m' _ hm st.1
    · simp [hl, hlt]
  | none =>
    simp only [hl]
    cases hl' : lookupA st.1 m' with
    | none =>
      rw [lookupA_append_of_none m' _ st.1 hl']
      simp [lookupA]
      exact fun hc => hm hc.symm
    | some w => exact lookupA_append_of_some m' w _ st.1 hl'

theorem updateMilestone_self (st : List (String × MilestoneEntry) × Bool) (cd : VerRev) :
    lookupA (updateMilestone st cd).1 (milestoneOf cd.version) =
      match lookupA st.1 (milestoneOf cd.version) with
      | some current =>
        if isOlderVersion current.version cd.version then
          some { current with version := cd.version, revision := cd.revision }
        else some current
      | none => some ⟨milestoneOf cd.version, cd.version, cd.revision⟩ := by
  unfold updateMilestone
  cases hl : lookupA st.1 (milestoneOf cd.version) with
  | some current =>
    by_cases hlt : isOlderVersion current.version cd.version
    · simp only [hl, hlt, if_true]
      rw [lookupA_updateA_self, hl]
      rfl
    · simp only [hl, hlt, if_false]
      exact hl
  | none =>
    simp only [hl]
    rw [lookupA_append_of_none _ _ st.1 hl]
    simp [lookupA]

theorem updateMilestone_insert (st : List (String × MilestoneEntry) × Bool) (cd : VerRev)
    (h : lookupA st.1 (milestoneOf cd.version) = none) :
    lookupA (updateMilestone st cd).1 (milestoneOf cd.version) =
      some ⟨milestoneOf cd.version, cd.version, cd.revision⟩ := by
  rw [updateMilestone_self, h]

theorem updateMilestone_mono (st : List (String × MilestoneEntry) × Bool) (cd : VerRev)
    (m : String) (e : MilestoneEntry) (h : lookupA st.1 m = some e) :
    ∃ e', lookupA (updateMilestone st cd).1 m = some e' ∧
      (e' = e ∨ (isOlderVersion e.version e'.version = true ∧ e'.milestone = e.milestone)) := by
  by_cases hm : m = milestoneOf cd.version
  · subst hm
    rw [updateMilestone_self, h]
    by_cases hlt : isOlderVersion e.version cd.version
    · exact ⟨{ e with version := cd.version, revision := cd.revision },
        by simp [hlt], Or.inr ⟨hlt, rfl⟩⟩
    · exact ⟨e, by simp [hlt], Or.inl rfl⟩
  · rw [updateMilestone_other st cd m hm, h]
    exact ⟨e, rfl, Or.inl rfl⟩

theorem updateMilestone_key_isSome (st : List (String × MilestoneEntry) × Bool) (cd : VerRev) :
    (lookupA (updateMilestone st cd).1 (milestoneOf cd.version)).isSome = true := by
  rw [updateMilestone_self]
  cases hl : lookupA st.1 (milestoneOf cd.version) with
  | some current => by_cases hlt : isOlderVersion current.version cd.version <;> simp [hlt]
  | none => rfl

theorem updateMilestone_isSome_mono (st : List (String × MilestoneEntry) × Bool) (cd : VerRev)
    (m : String) (h : (lookupA st.1 m).isSome = true) :
    (lookupA (updateMilestone st cd).1 m).isSome = true := by
  by_cases hm : m = milestoneOf cd.version
  · rw [hm]; exact updateMilestone_key_isSome st cd
  · rw [updateMilestone_other st cd m hm]; exact h

theorem milestones_fold_mono :
    ∀ (l : List (String × VerRev)) (st : List (String × MilestoneEntry) × Bool)
      (m : String) (e : MilestoneEntry), lookupA st.1 m = some e →
    ∃ e', lookupA (l.foldl (fun st cd => updateMilestone st cd.2) st).1 m = some e' ∧
      (e' = e ∨ (isOlderVersion e.version e'.version = true ∧ e'.milestone = e.milestone)) := by
  intro l
  induction l with
  | nil => intro st m e h; exact ⟨e, h, Or.inl rfl⟩
  | cons p rest ih =>
    intro st m e h
    rcases updateMilestone_mono st p.2 m e h with ⟨e1, h1, hrel1⟩
    rcases ih (updateMilestone st p.2) m e1 h1 with ⟨e', h', hrel2⟩
    refine ⟨e', h', ?_⟩
    rcases hrel1 with rfl | ⟨ho1, hm1⟩
    · exact hrel2
    · rcases hrel2 with rfl | ⟨ho2, hm2⟩
      · exact Or.inr ⟨ho1, hm1⟩
      · exact Or.inr ⟨isOlderVersion_trans ho1 ho2, hm2.trans hm1⟩

theorem milestones_fold_isSome :
    ∀ (l : List (String × VerRev)) (st : List (String × MilestoneEntry) × Bool) (m : String),
    (lookupA st.1 m).isSome = true →
    (lookupA (l.foldl (fun st cd => updateMilestone st cd.2) st).1 m).isSome = true := by
  intro l
  induction l with
  | nil => intro st m h; exact h
  | cons p rest ih =>
    intro st m h
    exact ih (updateMilestone st p.2) m (updateMilestone_isSome_mono st p.2 m h)

theorem milestones_fold_covers :
    ∀ (l : List (String × VerRev)) (st : List (String × MilestoneEntry) × Bool),
    ∀ p ∈ l, (lookupA (l.foldl (fun st cd => updateMilestone st cd.2) st).1
      (milestoneOf p.2.version)).isSome = true := by
  intro l
  induction l with
  | nil => intro st p hp; cases hp
  | cons q rest ih =>
    intro st p hp
    rcases List.mem_cons.mp hp with rfl | hp'
    · exact milestones_fold_isSome rest (updateMilestone st p.2) _
        (updateMilestone_key_isSome st p.2)
    · exact ih (updateMilestone st q.2) p hp'

theorem updateLatestVersionsPerMilestone_milestones (tsGen : Nat → String)
    (reg : MilestoneRegistry) (lkgv : KnownGoodRegistry) (tick : Nat) :
    (updateLatestVersionsPerMilestone tsGen reg lkgv tick).1.milestones =
      (lkgv.channels.foldl (fun st cd => updateMilestone st cd.2) (reg.milestones, false)).1 := by
  unfold updateLatestVersionsPerMilestone
  by_cases h : (lkgv.channels.foldl (fun st cd => updateMilestone st cd.2)
      (reg.milestones, false)).2 <;> simp [h]

/-- C3: the Milestone Index Updater overwrites an existing milestone entry
only with a strictly newer version — after a run, the stored entry for any
pre-existing milestone key is either exactly the old entry or one whose
version the old version is strictly older than (with the `milestone` field
untouched), so milestone versions never regress across successive runs;
every channel's milestone key is present after the run; and a channel
whose milestone key is new inserts `{milestone, version, revision}` with
the incoming data. -/
theorem milestone_update_monotone (tsGen : Nat → String) (reg : MilestoneRegistry)
    (lkgv : KnownGoodRegistry) (tick : Nat) :
    (∀ (m : String) (e : MilestoneEntry), lookupA reg.milestones m = some e →
      ∃ e', lookupA (updateLatestVersionsPerMilestone tsGen reg lkgv tick).1.milestones m
          = some e' ∧
        (e' = e ∨ (isOlderVersion e.version e'.version = true ∧ e'.milestone = e.milestone))) ∧
    (∀ cd ∈ lkgv.channels,
      (lookupA (updateLatestVersionsPerMilestone tsGen reg lkgv tick).1.milestones
        (milestoneOf (Prod.snd cd).version)).isSome = true) ∧
    (∀ (st : List (String × MilestoneEntry) × Bool) (cd : VerRev),
      lookupA st.1 (milestoneOf cd.version) = none →
      lookupA (updateMilestone st cd).1 (milestoneOf cd.version) =
        some ⟨milestoneOf cd.version, cd.version, cd.revision⟩) := by
  rw [updateLatestVersionsPerMilestone_milestones]
  exact ⟨fun m e h => milestones_fold_mono lkgv.channels (reg.milestones, false) m e h,
    fun cd hcd => milestones_fold_covers lkgv.channels (reg.milestones, false) cd hcd,
    fun st cd h => updateMilestone_insert st cd h⟩

/-- C3 witness: on a concrete registry holding milestone 120, a snapshot
carrying a newer 120 version and a fresh 121 version advances 120 without
regression, makes 121 present, and the insert lemma instantiates on a
concrete empty state. -/
theorem milestone_update_monotone_witness :
    (∃ e', lookupA (updateLatestVersionsPerMilestone (fun n => toString n)
        ⟨"t0", [("120", ⟨"120", "120.0.1.0", "r0"⟩)]⟩
        ⟨"ts", [("Stable", ⟨"120.0.2.0", "r1"⟩), ("Beta", ⟨"121.0.0.1", "r2"⟩)]⟩ 0).1.milestones
          "120" = some e' ∧
      (e' = (⟨"120", "120.0.1.0", "r0"⟩ : MilestoneEntry) ∨
        (isOlderVersion "120.0.1.0" e'.version = true ∧ e'.milestone = "120"))) ∧
    (lookupA (updateLatestVersionsPerMilestone (fun n => toString n)
        ⟨"t0", [("120", ⟨"120", "120.0.1.0", "r0"⟩)]⟩
        ⟨"ts", [("Stable", ⟨"120.0.2.0", "r1"⟩), ("Beta", ⟨"121.0.0.1", "r2"⟩)]⟩ 0).1.milestones
          "121").isSome = true ∧
    lookupA (updateMilestone ([], false) ⟨"121.0.0.1", "r2"⟩).1 "121"
      = some ⟨"121", "121.0.0.1", "r2"⟩ := by
  have h := milestone_update_monotone (fun n => toString n)
    ⟨"t0", [("120", ⟨"120", "120.0.1.0", "r0"⟩)]⟩
    ⟨"ts", [("Stable", ⟨"120.0.2.0", "r1"⟩), ("Beta", ⟨"121.0.0.1", "r2"⟩)]⟩ 0
  refine ⟨h.1 "120" ⟨"120", "120.0.1.0", "r0"⟩ (by decide), ?_, ?_⟩
  · have h2 := h.2.1 ("Beta", ⟨"121.0.0.1", "r2"⟩)
      (List.mem_cons_of_mem _ (List.mem_cons_self _ _))
    simpa using h2
  · have h3 := h.2.2 ([], false) ⟨"121.0.0.1", "r2"⟩ (by decide)
    simpa using h3

theorem lookupA_append_single_ne {β : Type} (k k' : String) (v : β) (hne : k' ≠ k)
    (l : List (String × β)) : lookupA (l ++ [(k, v)]) k' = lookupA l k' := by
  cases hl : lookupA l k' with
  | none =>
    rw [lookupA_append_of_none k' _ l hl]
    simp [lookupA]
    exact fun hc => hne hc.symm
  | some w => exact lookupA_append_of_some k' w _ l hl

theorem lookupA_append_single_self {β : Type} (k : String) (v : β) (l : List (String × β))
    (h : lookupA l k = none) : lookupA (l ++ [(k, v)]) k = some v := by
  rw [lookupA_append_of_none k _ l h]
  simp [lookupA]

theorem buildStep_strip_none (m : List (String × VerRev)) (e : VerRev)
    (h : stripPatch e.version = none) : buildStep m e = none := by
  simp [buildStep, h]

theorem buildStep_new (m : List (String × VerRev)) (e : VerRev) (be : String)
    (h : stripPatch e.version = some be) (hl : lookupA m be = none) :
    buildStep m e = some (m ++ [(be, e)]) := by
  simp [buildStep, h, hl]

theorem buildStep_newer (m : List (String × VerRev)) (e : VerRev) (be : String) (k : VerRev)
    (h : stripPatch e.version = some be) (hl : lookupA m be = some k)
    (hlt : isOlderVersion k.version e.version = true) :
    buildStep m e = some (updateA m be e) := by
  simp [buildStep, h, hl, hlt]

theorem buildStep_keep (m : List (String × VerRev)) (e : VerRev) (be : String) (k : VerRev)
    (h : stripPatch e.version = some be) (hl : lookupA m be = some k)
    (hlt : isOlderVersion k.version e.version = false) :
    buildStep m e = some m := by
  simp [buildStep, h, hl, hlt]

theorem buildFold_cons (m : List (String × VerRev)) (e : VerRev) (rest : List VerRev) :
    buildFold m (e :: rest) =
      match buildStep m e with
      | none => none
      | some m1 => buildFold m1 rest := rfl

theorem buildFold_lookup :
    ∀ (entries : List VerRev) (m m' : List (String × VerRev)),
    buildFold m entries = some m' →
    ∀ b, lookupA m' b =
      (entries.filter (fun e => stripPatch e.version == some b)).foldl bestForBuild
        (lookupA m b) := by
  intro entries
  induction entries with
  | nil => intro m m' h b; cases h; simp
  | cons e rest ih =>
    intro m m' h b
    rw [buildFold_cons] at h
    cases hsp : stripPatch e.version with
    | none => rw [buildStep_strip_none m e hsp] at h; cases h
    | some be =>
      have hstep : ∃ m1, buildStep m e = some m1 ∧
          lookupA m1 be = bestForBuild (lookupA m be) e ∧
          ∀ b', b' ≠ be → lookupA m1 b' = lookupA m b' := by
        cases hl : lookupA m be with
        | none =>
          refine ⟨m ++ [(be, e)], buildStep_new m e be hsp hl, ?_, ?_⟩
          · rw [lookupA_append_single_self be e m hl]
            rfl
          · intro b' hb'
            exact lookupA_append_single_ne be b' e hb' m
        | some k =>
          by_cases hlt : isOlderVersion k.version e.version
          · refine ⟨updateA m be e, buildStep_newer m e be k hsp hl hlt, ?_, ?_⟩
            · rw [lookupA_updateA_self, hl]
              simp [bestForBuild, hlt]
            · intro b' hb'
              exact lookupA_updateA_ne be b' e hb' m
          · have hlt' : isOlderVersion k.version e.version = false := by simpa using hlt
            refine ⟨m, buildStep_keep m e be k hsp hl hlt', ?_, fun b' _ => rfl⟩
            rw [hl]
            simp [bestForBuild, hlt']
      rcases hstep with ⟨m1, hs1, hs2, hs3⟩
      rw [hs1] at h
      by_cases hb : b = be
      · subst hb
        have hfilter : (e :: rest).filter (fun x => stripPatch x.version == some b)
            = e :: rest.filter (fun x => stripPatch x.version == some b) := by
          simp [List.filter_cons, hsp]
        rw [hfilter, List.foldl_cons, ← hs2]
        exact ih m1 m' h b
      · have hb' : be ≠ b := fun hc => hb hc.symm
        have hfilter : (e :: rest).filter (fun x => stripPatch x.version == some b)
            = rest.filter (fun x => stripPatch x.version == some b) := by
          simp [List.filter_cons, hsp, hb']
        rw [hfilter, ← hs3 b hb]
        exact ih m1 m' h b

theorem bestForBuild_foldl_chain :
    ∀ (g : List VerRev) (k c : VerRev),
    g.foldl bestForBuild (some k) = some c →
    k = c ∨ isOlderVersion k.version c.version = true := by
  intro g
  induction g with
  | nil => intro k c h; cases h; exact Or.inl rfl
  | cons e g ih =>
    intro k c h
    rw [List.foldl_cons] at h
    by_cases hlt : isOlderVersion k.version e.version
    · have hbe : bestForBuild (some k) e = some e := by simp [bestForBuild, hlt]
      rw [hbe] at h
      rcases ih e c h with rfl | hec
      · exact Or.inr hlt
      · exact Or.inr (isOlderVersion_trans hlt hec)
    · have hbe : bestForBuild (some k) e = some k := by simp [bestForBuild, hlt]
      rw [hbe] at h
      exact ih k c h

theorem bestForBuild_foldl_notOlder :
    ∀ (g : List VerRev) (acc : Option VerRev) (c : VerRev),
    g.foldl bestForBuild acc = some c →
    ∀ x ∈ g, isOlderVersion c.version x.version = false := by
  intro g
  induction g with
  | nil => intro acc c _ x hx; cases hx
  | cons e g ih =>
    intro acc c h x hx
    rw [List.foldl_cons] at h
    rcases List.mem_cons.mp hx with rfl | hx'
    · cases hacc : acc with
      | none =>
        rw [hacc] at h
        have hbe : bestForBuild none x = some x := rfl
        rw [hbe] at h
        rcases bestForBuild_foldl_chain g x c h with rfl | hxc
        · exact isOlderVersion_irrefl _
        · exact isOlderVersion_asymm hxc
      | some k =>
        rw [hacc] at h
        by_cases hlt : isOlderVersion k.version x.version
        · have hbe : bestForBuild (some k) x = some x := by simp [bestForBuild, hlt]
          rw [hbe] at h
          rcases bestForBuild_foldl_chain g x c h with rfl | hxc
          · exact isOlderVersion_irrefl _
          · exact isOlderVersion_asymm hxc
        · have hbe : bestForBuild (some k) x = some k := by simp [bestForBuild, hlt]
          rw [hbe] at h
          rcases bestForBuild_foldl_chain g k c h with rfl | hkc
          · simpa using hlt
          · rw [Bool.eq_false_iff]
            intro hcx
            exact hlt (isOlderVersion_trans hkc hcx)
    · exact ih (bestForBuild acc e) c h x hx'

theorem bestForBuild_foldl_mem :
    ∀ (g : List VerRev) (acc : Option VerRev) (c : VerRev),
    g.foldl bestForBuild acc = some c → acc = some c ∨ c ∈ g := by
  intro g
  induction g with
  | nil => intro acc c h; exact Or.inl h
  | cons e g ih =>
    intro acc c h
    rw [List.foldl_cons] at h
    rcases ih (bestForBuild acc e) c h with hacc | hg
    · cases ha : acc with
      | none =>
        rw [ha] at hacc
        have : e = c := by simpa [bestForBuild] using hacc
        exact Or.inr (this ▸ List.mem_cons_self e g)
      | some k =>
        rw [ha] at hacc
        by_cases hlt : isOlderVersion k.version e.version
        · have : e = c := by simpa [bestForBuild, hlt] using hacc
          exact Or.inr (this ▸ List.mem_cons_self e g)
        · have : k = c := by simpa [bestForBuild, hlt] using hacc
          exact Or.inl (ha ▸ congrArg some this)
    · exact Or.inr (List.mem_cons_of_mem e hg)

/-- C5: on every catalog the Build-Track Reducer acts per build key exactly
as the strict-replacement fold over the catalog entries sharing that key
(so the first-encountered entry is kept on ties), every stored entry is a
catalog entry of its own build key that no same-key catalog entry is
strictly newer than, the catalog timestamp is carried verbatim, and the
spec's concrete example `{"120.0.1.1", "120.0.1.5", "121.0.2.1"}` reduces
to `{"120.0.1": "120.0.1.5", "121.0.2": "121.0.2.1"}`. -/
theorem build_reducer_spec :
    (∀ (kgv : FlatCatalog) (out : BuildRegistry),
      prepareLatestPatchVersionsPerBuild kgv = some out →
      (∀ b, lookupA out.builds b =
        (kgv.versions.filter (fun e => stripPatch e.version == some b)).foldl
          bestForBuild none) ∧
      (∀ (b : String) (c : VerRev), lookupA out.builds b = some c →
        c ∈ kgv.versions ∧ stripPatch c.version = some b ∧
        ∀ x ∈ kgv.versions, stripPatch x.version = some b →
          isOlderVersion c.version x.version = false) ∧
      out.timestamp = kgv.timestamp) ∧
    prepareLatestPatchVersionsPerBuild
      ⟨"T", [⟨"120.0.1.1", "r1"⟩, ⟨"120.0.1.5", "r5"⟩, ⟨"121.0.2.1", "r21"⟩]⟩
      = some ⟨"T", [("120.0.1", ⟨"120.0.1.5", "r5"⟩), ("121.0.2", ⟨"121.0.2.1", "r21"⟩)]⟩ := by
  constructor
  · intro kgv out h
    unfold prepareLatestPatchVersionsPerBuild at h
    cases hf : buildFold [] kgv.versions with
    | none => rw [hf] at h; cases h
    | some m =>
      rw [hf] at h
      have hout : out = ⟨kgv.timestamp, m⟩ := by
        cases h
        rfl
      subst hout
      have hchar : ∀ b, lookupA m b =
          (kgv.versions.filter (fun e => stripPatch e.version == some b)).foldl
            bestForBuild none :=
        fun b => buildFold_lookup kgv.versions [] m hf b
      refine ⟨hchar, ?_, rfl⟩
      intro b c hc
      have hfold := hchar b
      rw [hc] at hfold
      have hmem : c ∈ kgv.versions.filter (fun e => stripPatch e.version == some b) := by
        rcases bestForBuild_foldl_mem _ none c hfold.symm with hn | hg
        · cases hn
        · exact hg
      have hmem' := List.mem_filter.mp hmem
      refine ⟨hmem'.1, by simpa using hmem'.2, ?_⟩
      intro x hx hsx
      exact bestForBuild_foldl_notOlder _ none c hfold.symm x
        (List.mem_filter.mpr ⟨hx, by simp [hsx]⟩)
  · decide

/-- C5 witness: the per-key characterization instantiated on the spec's
concrete example at build key `120.0.1`. -/
theorem build_reducer_spec_witness :
    lookupA [("120.0.1", (⟨"120.0.1.5", "r5"⟩ : VerRev)), ("121.0.2", ⟨"121.0.2.1", "r21"⟩)]
        "120.0.1" =
      ([(⟨"120.0.1.1", "r1"⟩ : VerRev), ⟨"120.0.1.5", "r5"⟩, ⟨"121.0.2.1", "r21"⟩].filter
        (fun e => stripPatch e.version == some "120.0.1")).foldl bestForBuild none := by
  have h := (build_reducer_spec).1
    ⟨"T", [⟨"120.0.1.1", "r1"⟩, ⟨"120.0.1.5", "r5"⟩, ⟨"121.0.2.1", "r21"⟩]⟩
    ⟨"T", [("120.0.1", ⟨"120.0.1.5", "r5"⟩), ("121.0.2", ⟨"121.0.2.1", "r21"⟩)]⟩
    (build_reducer_spec).2
  exact h.1 "120.0.1"

theorem addBinary_other (mkUrl : String → Option String → String → String)
    (cdCutoff hsCutoff : String) (platforms : List String) (version : String)
    (downloads : List (String × List DownloadEntry)) (binary k : String) (hk : k ≠ binary) :
    lookupA (addBinary mkUrl cdCutoff hsCutoff platforms version downloads binary) k
      = lookupA downloads k := by
  unfold addBinary
  split_ifs with h1 h2 h3
  · rfl
  · rfl
  · rfl
  · exact lookupA_setA_ne binary k _ hk downloads

theorem addBinary_cd_filtered (mkUrl : String → Option String → String → String)
    (cdCutoff hsCutoff : String) (platforms : List String) (version : String)
    (downloads : List (String × List DownloadEntry))
    (hpred : predatesAvailability cdCutoff version = true) :
    addBinary mkUrl cdCutoff hsCutoff platforms version downloads "chromedriver" = downloads := by
  simp [addBinary, hpred]

theorem addBinary_hs_filtered (mkUrl : String → Option String → String → String)
    (cdCutoff hsCutoff : String) (platforms : List String) (version : String)
    (downloads : List (String × List DownloadEntry))
    (hpred : predatesAvailability hsCutoff version = true) :
    addBinary mkUrl cdCutoff hsCutoff platforms version downloads "chrome-headless-shell"
      = downloads := by
  have h1 : (("chrome-headless-shell" : String) == "chromedriver") = false := by decide
  simp [addBinary, h1, hpred]

theorem addBinary_mojojs (mkUrl : String → Option String → String → String)
    (cdCutoff hsCutoff : String) (platforms : List String) (version : String)
    (downloads : List (String × List DownloadEntry)) :
    addBinary mkUrl cdCutoff hsCutoff platforms version downloads "mojojs" = downloads := by
  have h1 : (("mojojs" : String) == "chromedriver") = false := by decide
  have h2 : (("mojojs" : String) == "chrome-headless-shell") = false := by decide
  simp [addBinary, h1, h2]

theorem computeDownloads_fold_cd (mkUrl : String → Option String → String → String)
    (cdCutoff hsCutoff : String) (platforms : List String) (version : String)
    (hpred : predatesAvailability cdCutoff version = true) :
    ∀ (bs : List String) (acc : List (String × List DownloadEntry)),
    lookupA (bs.foldl (addBinary mkUrl cdCutoff hsCutoff platforms version) acc) "chromedriver"
      = lookupA acc "chromedriver" := by
  intro bs
  induction bs with
  | nil => intro acc; rfl
  | cons b bs ih =>
    intro acc
    rw [List.foldl_cons]
    by_cases hb : b = "chromedriver"
    · subst hb
      rw [addBinary_cd_filtered mkUrl cdCutoff hsCutoff platforms version acc hpred]
      exact ih acc
    · rw [ih, addBinary_other mkUrl cdCutoff hsCutoff platforms version acc b "chromedriver"
        (fun hc => hb hc.symm)]

theorem computeDownloads_fold_hs (mkUrl : String → Option String → String → String)
    (cdCutoff hsCutoff : String) (platforms : List String) (version : String)
    (hpred : predatesAvailability hsCutoff version = true) :
    ∀ (bs : List String) (acc : List (String × List DownloadEntry)),
    lookupA (bs.foldl (addBinary mkUrl cdCutoff hsCutoff platforms version) acc)
      "chrome-headless-shell" = lookupA acc "chrome-headless-shell" := by
  intro bs
  induction bs with
  | nil => intro acc; rfl
  | cons b bs ih =>
    intro acc
    rw [List.foldl_cons]
    by_cases hb : b = "chrome-headless-shell"
    · subst hb
      rw [addBinary_hs_filtered mkUrl cdCutoff hsCutoff platforms version acc hpred]
      exact ih acc
    · rw [ih, addBinary_other mkUrl cdCutoff hsCutoff platforms version acc b
        "chrome-headless-shell" (fun hc => hb hc.symm)]

theorem computeDownloads_fold_mojojs (mkUrl : String → Option String → String → String)
    (cdCutoff hsCutoff : String) (platforms : List String) (version : String) :
    ∀ (bs : List String) (acc : List (String × List DownloadEntry)),
    lookupA (bs.foldl (addBinary mkUrl cdCutoff hsCutoff platforms version) acc) "mojojs"
      = lookupA acc "mojojs" := by
  intro bs
  induction bs with
  | nil => intro acc; rfl
  | cons b bs ih =>
    intro acc
    rw [List.foldl_cons]
    by_cases hb : b = "mojojs"
    · subst hb
      rw [addBinary_mojojs mkUrl cdCutoff hsCutoff platforms version acc]
      exact ih acc
    · rw [ih, addBinary_other mkUrl cdCutoff hsCutoff platforms version acc b "mojojs"
        (fun hc => hb hc.symm)]

/-- C6: a record whose version predates the chromedriver availability
cutoff gets a downloads mapping with no `chromedriver` key at all, and a
record predating the chrome-headless-shell cutoff gets none for
`chrome-headless-shell` — whatever the binary enumeration, platform
enumeration and URL builder are. -/
theorem addDownloads_availability_cutoffs (mkUrl : String → Option String → String → String)
    (cdCutoff hsCutoff : String) (binaries platforms : List String)
    (data : ManifestRegistry) (r : ManifestRecord)
    (hr : r ∈ (addDownloads mkUrl cdCutoff hsCutoff binaries platforms data).2.records) :
    (predatesAvailability cdCutoff r.version = true →
      lookupA r.downloads "chromedriver" = none) ∧
    (predatesAvailability hsCutoff r.version = true →
      lookupA r.downloads "chrome-headless-shell" = none) := by
  have hr' : r ∈ data.records.map (expandRecord mkUrl cdCutoff hsCutoff binaries platforms) := hr
  rcases List.mem_map.mp hr' with ⟨r0, _, hre⟩
  subst hre
  constructor
  · intro hp
    exact computeDownloads_fold_cd mkUrl cdCutoff hsCutoff platforms r0.version hp binaries []
  · intro hp
    exact computeDownloads_fold_hs mkUrl cdCutoff hsCutoff platforms r0.version hp binaries []

/-- C6 witness: with concrete cutoffs and a record at version `114.0.0.0`
(predating both), the expanded downloads mapping has neither key. -/
theorem addDownloads_availability_cutoffs_witness :
    lookupA (expandRecord (fun v _ b => v ++ b) "115.0.5763.0" "120.0.6098.0"
      ["chrome", "chromedriver", "chrome-headless-shell", "mojojs"] ["linux64"]
      ⟨"114.0.0.0", "r", [], []⟩).downloads "chromedriver" = none ∧
    lookupA (expandRecord (fun v _ b => v ++ b) "115.0.5763.0" "120.0.6098.0"
      ["chrome", "chromedriver", "chrome-headless-shell", "mojojs"] ["linux64"]
      ⟨"114.0.0.0", "r", [], []⟩).downloads "chrome-headless-shell" = none := by
  have h := addDownloads_availability_cutoffs (fun v _ b => v ++ b) "115.0.5763.0" "120.0.6098.0"
    ["chrome", "chromedriver", "chrome-headless-shell", "mojojs"] ["linux64"]
    ⟨"ts", [⟨"114.0.0.0", "r", [], []⟩]⟩
    (expandRecord (fun v _ b => v ++ b) "115.0.5763.0" "120.0.6098.0"
      ["chrome", "chromedriver", "chrome-headless-shell", "mojojs"] ["linux64"]
      ⟨"114.0.0.0", "r", [], []⟩)
    (List.mem_cons_self _ _)
  exact ⟨h.1 (by decide), h.2 (by decide)⟩

/-- C7: no expanded record's downloads mapping ever carries the synthetic
`mojojs` binary kind, for any registry, version, enumeration of binaries
or platforms, cutoffs, and URL builder. -/
theorem addDownloads_no_mojojs (mkUrl : String → Option String → String → String)
    (cdCutoff hsCutoff : String) (binaries platforms : List String)
    (data : ManifestRegistry) (r : ManifestRecord)
    (hr : r ∈ (addDownloads mkUrl cdCutoff hsCutoff binaries platforms data).2.records) :
    lookupA r.downloads "mojojs" = none := by
  have hr' : r ∈ data.records.map (expandRecord mkUrl cdCutoff hsCutoff binaries platforms) := hr
  rcases List.mem_map.mp hr' with ⟨r0, _, hre⟩
  subst hre
  exact computeDownloads_fold_mojojs mkUrl cdCutoff hsCutoff platforms r0.version binaries []

/-- C7 witness: the mojojs key is absent from a concrete expanded record
even when its version postdates every cutoff. -/
theorem addDownloads_no_mojojs_witness :
    lookupA (expandRecord (fun v _ b => v ++ b) "115.0.5763.0" "120.0.6098.0"
      ["chrome", "chromedriver", "chrome-headless-shell", "mojojs"] ["linux64"]
      ⟨"121.0.0.0", "r", [], []⟩).downloads "mojojs" = none :=
  addDownloads_no_mojojs (fun v _ b => v ++ b) "115.0.5763.0" "120.0.6098.0"
    ["chrome", "chromedriver", "chrome-headless-shell", "mojojs"] ["linux64"]
    ⟨"ts", [⟨"121.0.0.0", "r", [], []⟩]⟩
    (expandRecord (fun v _ b => v ++ b) "115.0.5763.0" "120.0.6098.0"
      ["chrome", "chromedriver", "chrome-headless-shell", "mojojs"] ["linux64"]
      ⟨"121.0.0.0", "r", [], []⟩)
    (List.mem_cons_self _ _)

/-- C8: the expander is pure with respect to its input — the input
registry value is returned untouched by the run (the loop writes only into
the structured clone), and the returned manifest agrees with the input on
the timestamp and on every record field except `downloads`, which is
replaced by the computed mapping for the record's own version. -/
theorem addDownloads_pure (mkUrl : String → Option String → String → String)
    (cdCutoff hsCutoff : String) (binaries platforms : List String)
    (data : ManifestRegistry) :
    (addDownloads mkUrl cdCutoff hsCutoff binaries platforms data).1 = data ∧
    (addDownloads mkUrl cdCutoff hsCutoff binaries platforms data).2.timestamp
      = data.timestamp ∧
    (addDownloads mkUrl cdCutoff hsCutoff binaries platforms data).2.records
      = data.records.map (fun r =>
          { r with downloads :=
              computeDownloads mkUrl cdCutoff hsCutoff binaries platforms r.version }) :=
  ⟨rfl, rfl, rfl⟩
